import Mathlib

set_option maxRecDepth 4000

/-!
Verification development for the AlphaPulse-AI repository
(`app/services/openai_summarizer.py`, `app/services/yfinance_utils.py`,
`app/services/news_crawler.py`, `app/routes.py`).

Python text values are modelled as `List Char` (Python slicing and `len`
operate on code points, exactly matching `List Char` operations).  Optional
dictionary fields are modelled as `Option (List Char)`; Python truthiness of
a string (`''` and `None` are falsy) is modelled explicitly at each use site,
following the source.
-/

/-- Python strings are sequences of code points. -/
abbrev PyStr := List Char

/-- Whitespace as recognized by Python's `str.strip()` / `re` `\s` on `str`
(ASCII whitespace plus the common Unicode whitespace code points). -/
def isPySpace (c : Char) : Bool :=
  c = ' ' || c = '\t' || c = '\n' || c = '\r' || c = '\x0b' || c = '\x0c' ||
  c = '\x1c' || c = '\x1d' || c = '\x1e' || c = '\x1f' || c = '\x85' ||
  c = '\xa0' || c.toNat = 0x1680 || (0x2000 ≤ c.toNat && c.toNat ≤ 0x200a) ||
  c.toNat = 0x2028 || c.toNat = 0x2029 || c.toNat = 0x202f ||
  c.toNat = 0x205f || c.toNat = 0x3000

/-- Python `str.strip()`: drop whitespace from both ends. -/
def pyStrip (s : PyStr) : PyStr :=
  ((s.dropWhile isPySpace).reverse.dropWhile isPySpace).reverse

/-- Python `str.upper()` (ASCII case mapping; source tickers are ASCII). -/
def pyUpper (s : PyStr) : PyStr := s.map Char.toUpper

/-- Python `x or ''` for an optional string field (`None` and `''` both give `''`). -/
def pyOrEmpty (s : Option PyStr) : PyStr :=
  match s with
  | none => []
  | some t => t

/-- A news dictionary as produced by `news_crawler.fetch_relevant_news` and
consumed by `_compact_news` (all fields reached via `.get`, hence optional). -/
structure NewsItem where
  ticker : Option PyStr
  title : Option PyStr
  url : Option PyStr
  source : Option PyStr
  published_at : Option PyStr
  deriving DecidableEq, Repr

/-! ## `news_crawler.fetch_relevant_news`: deduplication by url

Source (news_crawler.py lines 67-76):
```
seen = set()
deduped = []
for it in items:
    u = it.get('url')
    if u and u not in seen:
        seen.add(u)
        deduped.append(it)
return deduped
```
The `seen` set is modelled as the list of urls already kept. -/
def dedupByUrl : List NewsItem → List PyStr → List NewsItem
  | [], _ => []
  | it :: rest, seen =>
    match it.url with
    | some u =>
      if u ≠ [] ∧ u ∉ seen then it :: dedupByUrl rest (u :: seen)
      else dedupByUrl rest seen
    | none => dedupByUrl rest seen

/-- The deduplication step of `fetch_relevant_news` applied to the merged
pre-deduplication item list (the network fetching that builds `items` is an
external collaborator; the claim quantifies over that list). -/
def fetch_relevant_news (items : List NewsItem) : List NewsItem :=
  dedupByUrl items []

/-! ## `yfinance_utils.get_daily_indicators`: change_pct computation

Source (yfinance_utils.py lines 13-15):
```
last_close = float(hist['Close'].iloc[-1]) if not hist.empty else None
prev_close = float(hist['Close'].iloc[-2]) if len(hist) >= 2 else None
change_pct = ((last_close - prev_close) / prev_close * 100.0) if last_close and prev_close else None
```
Prices are modelled as rationals; the close history for one ticker is the
list of `Close` values. Python float truthiness makes `0.0` falsy, so the
guard `last_close and prev_close` requires both values present and nonzero. -/
def lastClose (closes : List ℚ) : Option ℚ :=
  if closes.isEmpty then none else closes.getLast?

def prevClose (closes : List ℚ) : Option ℚ :=
  if closes.length ≥ 2 then closes.get? (closes.length - 2) else none

def changePct (closes : List ℚ) : Option ℚ :=
  match lastClose closes, prevClose closes with
  | some l, some p => if l ≠ 0 ∧ p ≠ 0 then some ((l - p) / p * 100) else none
  | _, _ => none


/-! ### Lemmas about `dedupByUrl` -/

theorem dedupByUrl_nil (seen : List PyStr) : dedupByUrl [] seen = [] := rfl

theorem dedupByUrl_cons_none (a : NewsItem) (rest : List NewsItem) (seen : List PyStr)
    (hurl : a.url = none) :
    dedupByUrl (a :: rest) seen = dedupByUrl rest seen := by
  simp only [dedupByUrl, hurl]

theorem dedupByUrl_cons_keep (a : NewsItem) (rest : List NewsItem) (seen : List PyStr)
    (u : PyStr) (hurl : a.url = some u) (hc : u ≠ [] ∧ u ∉ seen) :
    dedupByUrl (a :: rest) seen = a :: dedupByUrl rest (u :: seen) := by
  simp only [dedupByUrl, hurl, if_pos hc]

theorem dedupByUrl_cons_skip (a : NewsItem) (rest : List NewsItem) (seen : List PyStr)
    (u : PyStr) (hurl : a.url = some u) (hc : ¬ (u ≠ [] ∧ u ∉ seen)) :
    dedupByUrl (a :: rest) seen = dedupByUrl rest seen := by
  simp only [dedupByUrl, hurl, if_neg hc]

theorem dedupByUrl_sublist (items : List NewsItem) :
    ∀ seen, List.Sublist (dedupByUrl items seen) items := by
  induction items with
  | nil => intro seen; simp [dedupByUrl_nil]
  | cons a rest ih =>
    intro seen
    cases hurl : a.url with
    | none =>
      rw [dedupByUrl_cons_none a rest seen hurl]
      exact (ih seen).cons a
    | some u =>
      by_cases hc : u ≠ [] ∧ u ∉ seen
      · rw [dedupByUrl_cons_keep a rest seen u hurl hc]
        exact (ih (u :: seen)).cons₂ a
      · rw [dedupByUrl_cons_skip a rest seen u hurl hc]
        exact (ih seen).cons a

theorem dedupByUrl_url_nonempty (items : List NewsItem) :
    ∀ seen, ∀ it ∈ dedupByUrl items seen, ∃ u, it.url = some u ∧ u ≠ [] := by
  induction items with
  | nil => intro seen it h; simp [dedupByUrl_nil] at h
  | cons a rest ih =>
    intro seen it h
    cases hurl : a.url with
    | none =>
      rw [dedupByUrl_cons_none a rest seen hurl] at h
      exact ih seen it h
    | some u =>
      by_cases hc : u ≠ [] ∧ u ∉ seen
      · rw [dedupByUrl_cons_keep a rest seen u hurl hc] at h
        rcases List.mem_cons.mp h with h | h
        · exact ⟨u, by rw [h, hurl], hc.1⟩
        · exact ih (u :: seen) it h
      · rw [dedupByUrl_cons_skip a rest seen u hurl hc] at h
        exact ih seen it h

theorem dedupByUrl_filter (u : PyStr) (hu : u ≠ []) (items : List NewsItem) :
    ∀ seen,
      (u ∉ seen → (dedupByUrl items seen).filter (fun it => decide (it.url = some u))
          = (items.filter (fun it => decide (it.url = some u))).take 1) ∧
      (u ∈ seen → (dedupByUrl items seen).filter (fun it => decide (it.url = some u)) = []) := by
  induction items with
  | nil => intro seen; simp [dedupByUrl_nil]
  | cons a rest ih =>
    intro seen
    cases hurl : a.url with
    | none =>
      have hfa : (List.filter (fun it => decide (it.url = some u)) (a :: rest))
          = List.filter (fun it => decide (it.url = some u)) rest := by
        simp [List.filter_cons, hurl]
      rw [dedupByUrl_cons_none a rest seen hurl, hfa]
      exact ih seen
    | some v =>
      by_cases hvu : v = u
      · rw [hvu] at hurl
        have hfa : (List.filter (fun it => decide (it.url = some u)) (a :: rest))
            = a :: List.filter (fun it => decide (it.url = some u)) rest := by
          simp [List.filter_cons, hurl]
        by_cases hc : u ≠ [] ∧ u ∉ seen
        · rw [dedupByUrl_cons_keep a rest seen u hurl hc]
          constructor
          · intro _
            rw [hfa, List.filter_cons]
            simp only [hurl, decide_eq_true_eq, Option.some.injEq, decide_True, if_pos]
            rw [(ih (u :: seen)).2 (List.mem_cons_self u seen)]
            simp
          · intro hmem
            exact absurd hmem hc.2
        · have hseen : u ∈ seen := by
            rcases not_and_or.mp hc with h | h
            · exact absurd hu (by simpa using h)
            · exact not_not.mp h
          rw [dedupByUrl_cons_skip a rest seen u hurl hc]
          constructor
          · intro hmem; exact absurd hseen hmem
          · intro _; exact (ih seen).2 hseen
      · have hfa : (List.filter (fun it => decide (it.url = some u)) (a :: rest))
            = List.filter (fun it => decide (it.url = some u)) rest := by
          simp [List.filter_cons, hurl, hvu]
        by_cases hc : v ≠ [] ∧ v ∉ seen
        · rw [dedupByUrl_cons_keep a rest seen v hurl hc, hfa, List.filter_cons]
          simp only [hurl, decide_eq_true_eq, Option.some.injEq, hvu, decide_False,
            if_neg, Bool.false_eq_true, not_false_iff]
          constructor
          · intro hmem
            have : u ∉ v :: seen := by
              intro h; rcases List.mem_cons.mp h with h | h
              · exact hvu h.symm
              · exact hmem h
            exact (ih (v :: seen)).1 this
          · intro hmem
            exact (ih (v :: seen)).2 (List.mem_cons_of_mem v hmem)
        · rw [dedupByUrl_cons_skip a rest seen v hurl hc, hfa]
          exact ih seen

/-- Concrete items used to witness the deduplication theorem: two items share
one url, one item has no url, one has an empty url, one has a fresh url. -/
def newsExA : NewsItem := ⟨some ("AAPL".toList), some ("t1".toList), some ("https://x/a".toList), none, none⟩

def newsExB : NewsItem := ⟨some ("MSFT".toList), some ("t2".toList), some ("https://x/a".toList), none, none⟩

def newsExC : NewsItem := ⟨some ("MSFT".toList), some ("t3".toList), none, none, none⟩

def newsExD : NewsItem := ⟨some ("TSLA".toList), some ("t4".toList), some ([]), none, none⟩

def newsExE : NewsItem := ⟨some ("TSLA".toList), some ("t5".toList), some ("https://x/b".toList), none, none⟩

def newsExList : List NewsItem := [newsExA, newsExB, newsExC, newsExD, newsExE]

/-- C6: the list returned by `fetch_relevant_news` keeps each non-empty url
exactly once (the first-seen occurrence), every returned item has a non-empty
url, and the relative order of kept items equals their order in the
pre-deduplication collection (the output is a sublist of the input). -/
theorem fetch_relevant_news_dedup_spec (items : List NewsItem) :
    List.Sublist (fetch_relevant_news items) items ∧
    (∀ it ∈ fetch_relevant_news items, ∃ u, it.url = some u ∧ u ≠ []) ∧
    (∀ u : PyStr, u ≠ [] →
      (fetch_relevant_news items).filter (fun it => decide (it.url = some u))
        = (items.filter (fun it => decide (it.url = some u))).take 1) := by
  refine ⟨dedupByUrl_sublist items [], dedupByUrl_url_nonempty items [], ?_⟩
  intro u hu
  exact (dedupByUrl_filter u hu items []).1 (by simp)

/-- Witness for C6 at a concrete input: the duplicate url survives once
(first occurrence), the empty/missing urls are dropped. -/
theorem fetch_relevant_news_dedup_spec_witness :
    fetch_relevant_news newsExList = [newsExA, newsExE] ∧
    ("https://x/a".toList ≠ ([] : PyStr)) ∧
    (fetch_relevant_news newsExList).filter
        (fun it => decide (it.url = some ("https://x/a".toList)))
      = (newsExList.filter (fun it => decide (it.url = some ("https://x/a".toList)))).take 1 :=
  ⟨by decide, by decide,
    (fetch_relevant_news_dedup_spec newsExList).2.2 ("https://x/a".toList) (by decide)⟩

/-- C2 counterexample: the claim "change_pct is computed whenever both closes
are present and prev ≠ 0" fails on the code at closes = [100, 0]: the last
close 0.0 is falsy in Python, so `last_close and prev_close` is false and
change_pct is None although both closes are present and prev = 100 ≠ 0. -/
theorem changePct_claim_counterexample : ¬ (∀ (closes : List ℚ) (l p : ℚ),
    lastClose closes = some l → prevClose closes = some p → p ≠ 0 →
    changePct closes = some ((l - p) / p * 100)) := by
  intro h
  have h1 : lastClose [(100 : ℚ), 0] = some 0 := by decide
  have h2 : prevClose [(100 : ℚ), 0] = some 100 := by decide
  have h3 : changePct [(100 : ℚ), 0] = none := by decide
  have hc := h [(100 : ℚ), 0] 0 100 h1 h2 (by norm_num)
  rw [h3] at hc
  exact Option.noConfusion hc

/-- C2 (amended): change_pct equals `(last - prev) / prev * 100` exactly when
both closes are present and both are nonzero; otherwise (either close absent,
or either close equal to 0 — the code treats a 0.0 last close as falsy too)
change_pct is absent, and no division is ever attempted with prev = 0. -/
theorem changePct_amended (closes : List ℚ) :
    (∀ l p : ℚ, lastClose closes = some l → prevClose closes = some p →
      (l ≠ 0 ∧ p ≠ 0 → changePct closes = some ((l - p) / p * 100)) ∧
      (l = 0 ∨ p = 0 → changePct closes = none)) ∧
    ((lastClose closes = none ∨ prevClose closes = none) → changePct closes = none) := by
  constructor
  · intro l p hl hp
    constructor
    · intro h
      simp [changePct, hl, hp, h]
    · intro h
      have hn : ¬ (l ≠ 0 ∧ p ≠ 0) := by tauto
      simp [changePct, hl, hp, hn]
  · intro h
    rcases h with h | h <;> simp [changePct, h]

/-- Witness for the amended C2 claim at the spec's example: last = 110,
prev = 100 gives change_pct = 10. -/
theorem changePct_amended_witness : changePct [(100 : ℚ), 110] = some 10 := by
  have h := ((changePct_amended [(100 : ℚ), 110]).1 110 100 (by decide) (by decide)).1
    (by norm_num)
  have he : ((110 : ℚ) - 100) / 100 * 100 = 10 := by norm_num
  rw [he] at h
  exact h

/-! ## `openai_summarizer._compact_news`

Source (openai_summarizer.py lines 173-229). One entry of the compact list
keeps five string fields. -/
structure CompactItem where
  ticker : PyStr
  title : PyStr
  url : PyStr
  source : PyStr
  published_at : PyStr
  deriving DecidableEq, Repr

/-- `(item.get('ticker') or '').upper()`. -/
def normTicker (item : NewsItem) : PyStr := pyUpper (pyOrEmpty item.ticker)

/-- Title truncation: `if len(title) > 180: title = title[:177] + '...'`. -/
def truncTitle (t : PyStr) : PyStr :=
  if t.length > 180 then t.take 177 ++ ('.' :: '.' :: '.' :: []) else t

/-- The compact dictionary built for one accepted news item. -/
def mkCompact (item : NewsItem) : CompactItem :=
  ⟨normTicker item,
   truncTitle (pyStrip (pyOrEmpty item.title)),
   pyStrip (pyOrEmpty item.url),
   pyOrEmpty item.source,
   pyOrEmpty item.published_at⟩

/-- The collection loop of `_compact_news` (lines 187-209).  `counts` is the
`by_ticker` dictionary as a total function with default 0; `size` is the
current length of the `compact` accumulator — the loop breaks right after an
append makes that length reach `maxItems`, which is why the returned lists
are built in non-accumulator style with `size` tracking the accumulator
length. `urls` collects the (stripped) url of each accepted item when it is
non-empty, in acceptance order. -/
def compactLoop (perTicker maxItems : Nat) :
    List NewsItem → (PyStr → Nat) → Nat → List CompactItem × List PyStr
  | [], _, _ => ([], [])
  | item :: rest, counts, size =>
    let t := normTicker item
    if counts t ≥ perTicker then compactLoop perTicker maxItems rest counts size
    else
      let c := mkCompact item
      let urlsHead : List PyStr := if c.url ≠ [] then [c.url] else []
      if size + 1 ≥ maxItems then ([c], urlsHead)
      else
        let r := compactLoop perTicker maxItems rest
          (fun x => if x = t then counts t + 1 else counts x) (size + 1)
        (c :: r.1, urlsHead ++ r.2)

/-- Hex digit as produced by Python's `\u00XX` escapes (lowercase letters). -/
def hexDigit (n : Nat) : Char :=
  if n < 10 then Char.ofNat (48 + n) else Char.ofNat (87 + n)

/-- One character as emitted by `json.dumps(..., ensure_ascii=False)`:
quote, backslash and the short control escapes are backslash-escaped, other
control characters become `\u00XX`, everything else is emitted verbatim. -/
def jsonEscapeChar (c : Char) : PyStr :=
  if c = '"' then '\\' :: '"' :: []
  else if c = '\\' then '\\' :: '\\' :: []
  else if c = '\n' then '\\' :: 'n' :: []
  else if c = '\t' then '\\' :: 't' :: []
  else if c = '\r' then '\\' :: 'r' :: []
  else if c = '\x08' then '\\' :: 'b' :: []
  else if c = '\x0c' then '\\' :: 'f' :: []
  else if c.toNat < 0x20 then
    '\\' :: 'u' :: '0' :: '0' :: hexDigit (c.toNat / 16) :: hexDigit (c.toNat % 16) :: []
  else [c]

def jsonQuote (s : PyStr) : PyStr :=
  '"' :: (s.flatMap jsonEscapeChar) ++ ('"' :: [])

/-- `json.dumps` (ensure_ascii=False, default separators `", "` and `": "`)
of one compact entry; dict insertion order ticker, title, url, source,
published_at as in the source. -/
def serializeItem (c : CompactItem) : PyStr :=
  ('\x7b' :: []) ++ jsonQuote ("ticker".toList) ++ (':' :: ' ' :: []) ++ jsonQuote c.ticker
    ++ (',' :: ' ' :: []) ++ jsonQuote ("title".toList) ++ (':' :: ' ' :: []) ++ jsonQuote c.title
    ++ (',' :: ' ' :: []) ++ jsonQuote ("url".toList) ++ (':' :: ' ' :: []) ++ jsonQuote c.url
    ++ (',' :: ' ' :: []) ++ jsonQuote ("source".toList) ++ (':' :: ' ' :: []) ++ jsonQuote c.source
    ++ (',' :: ' ' :: []) ++ jsonQuote ("published_at".toList) ++ (':' :: ' ' :: [])
    ++ jsonQuote c.published_at ++ ('\x7d' :: [])

def joinCommaSpace : List PyStr → PyStr
  | [] => []
  | [x] => x
  | x :: y :: xs => x ++ (',' :: ' ' :: []) ++ joinCommaSpace (y :: xs)

def serializeList (l : List CompactItem) : PyStr :=
  ('[' :: []) ++ joinCommaSpace (l.map serializeItem) ++ (']' :: [])

/-- `size_of(payload)` = `len(json.dumps(payload, ensure_ascii=False))`
(the dumps of a list of string-valued dicts cannot raise, so the
`except: return 0` branch of `size_of` is dead for these payloads). -/
def sizeOfCompact (l : List CompactItem) : Nat := (serializeList l).length

/-- The trimming loop: `while compact and size_of(compact) > max_chars:
compact.pop()`.  Each iteration shortens the list by one, so the loop runs
at most `l.length` times; the fuel argument makes the recursion structural
(it never runs out before the loop's own exit condition fires). -/
def trimLoopAux : Nat → Nat → List CompactItem → List CompactItem
  | 0, _, l => l
  | fuel + 1, maxChars, l =>
    if l ≠ [] ∧ sizeOfCompact l > maxChars then trimLoopAux fuel maxChars l.dropLast
    else l

def trimLoop (maxChars : Nat) (l : List CompactItem) : List CompactItem :=
  trimLoopAux l.length maxChars l

/-- Url deduplication preserving order (lines 222-227): `if u and u not in
seen`. -/
def dedupUrls : List PyStr → List PyStr → List PyStr
  | [], _ => []
  | u :: rest, seen =>
    if u ≠ [] ∧ u ∉ seen then u :: dedupUrls rest (u :: seen)
    else dedupUrls rest seen

/-- `_compact_news(news, max_items, per_ticker, max_chars)` — returns the
compact list and the deduplicated url list. -/
def compactNews (news : List NewsItem) (maxItems perTicker maxChars : Nat) :
    List CompactItem × List PyStr :=
  if news.isEmpty then ([], [])
  else
    let r := compactLoop perTicker maxItems news (fun _ => 0) 0
    (trimLoop maxChars r.1, dedupUrls r.2 [])

/-- Modelled from the spec: the selection algorithm as §4.3 words it
("iterate input NewsItems in order; maintain a per-ticker counter; skip
items once a ticker's counter reaches K; stop accepting once N items are
collected") — the refinement target that C5 compares `_compact_news`'s
collection loop against. -/
def specSelect (perTicker maxItems : Nat) :
    List NewsItem → (PyStr → Nat) → Nat → List NewsItem
  | [], _, _ => []
  | item :: rest, counts, total =>
    let t := normTicker item
    if total ≥ maxItems ∨ counts t ≥ perTicker then
      specSelect perTicker maxItems rest counts total
    else
      item :: specSelect perTicker maxItems rest
        (fun x => if x = t then counts t + 1 else counts x) (total + 1)

/-! ### Unfolding equations for the collection loop and the spec selection -/

theorem compactLoop_nil (perTicker maxItems : Nat) (counts : PyStr → Nat) (size : Nat) :
    compactLoop perTicker maxItems [] counts size = ([], []) := rfl

theorem compactLoop_cons_skip (perTicker maxItems : Nat) (item : NewsItem)
    (rest : List NewsItem) (counts : PyStr → Nat) (size : Nat)
    (hc : counts (normTicker item) ≥ perTicker) :
    compactLoop perTicker maxItems (item :: rest) counts size
      = compactLoop perTicker maxItems rest counts size := by
  simp only [compactLoop, if_pos hc]

theorem compactLoop_cons_last (perTicker maxItems : Nat) (item : NewsItem)
    (rest : List NewsItem) (counts : PyStr → Nat) (size : Nat)
    (hc : ¬ counts (normTicker item) ≥ perTicker) (hs : size + 1 ≥ maxItems) :
    compactLoop perTicker maxItems (item :: rest) counts size
      = ([mkCompact item],
         if (mkCompact item).url ≠ [] then [(mkCompact item).url] else []) := by
  simp only [compactLoop, if_neg hc, if_pos hs]

theorem compactLoop_cons_keep (perTicker maxItems : Nat) (item : NewsItem)
    (rest : List NewsItem) (counts : PyStr → Nat) (size : Nat)
    (hc : ¬ counts (normTicker item) ≥ perTicker) (hs : ¬ size + 1 ≥ maxItems) :
    compactLoop perTicker maxItems (item :: rest) counts size
      = (mkCompact item :: (compactLoop perTicker maxItems rest
            (fun x => if x = normTicker item then counts (normTicker item) + 1 else counts x)
            (size + 1)).1,
         (if (mkCompact item).url ≠ [] then [(mkCompact item).url] else [])
           ++ (compactLoop perTicker maxItems rest
            (fun x => if x = normTicker item then counts (normTicker item) + 1 else counts x)
            (size + 1)).2) := by
  simp only [compactLoop, if_neg hc, if_neg hs]

theorem specSelect_nil (perTicker maxItems : Nat) (counts : PyStr → Nat) (total : Nat) :
    specSelect perTicker maxItems [] counts total = [] := rfl

theorem specSelect_cons_skip (perTicker maxItems : Nat) (item : NewsItem)
    (rest : List NewsItem) (counts : PyStr → Nat) (total : Nat)
    (h : total ≥ maxItems ∨ counts (normTicker item) ≥ perTicker) :
    specSelect perTicker maxItems (item :: rest) counts total
      = specSelect perTicker maxItems rest counts total := by
  simp only [specSelect, if_pos h]

theorem specSelect_cons_keep (perTicker maxItems : Nat) (item : NewsItem)
    (rest : List NewsItem) (counts : PyStr → Nat) (total : Nat)
    (h : ¬ (total ≥ maxItems ∨ counts (normTicker item) ≥ perTicker)) :
    specSelect perTicker maxItems (item :: rest) counts total
      = item :: specSelect perTicker maxItems rest
          (fun x => if x = normTicker item then counts (normTicker item) + 1 else counts x)
          (total + 1) := by
  simp only [specSelect, if_neg h]

/-- Once the total has reached `maxItems`, the spec selection accepts nothing. -/
theorem specSelect_of_full (perTicker maxItems : Nat) (news : List NewsItem) :
    ∀ counts total, total ≥ maxItems →
      specSelect perTicker maxItems news counts total = [] := by
  induction news with
  | nil => intro counts total _; rfl
  | cons item rest ih =>
    intro counts total h
    rw [specSelect_cons_skip _ _ _ _ _ _ (Or.inl h)]
    exact ih counts total h

/-- The collection loop of `_compact_news` computes exactly the spec's greedy
selection (compacted), as long as the accumulator has not reached the item
cap (initially `0 < maxItems`). -/
theorem compactLoop_eq_specSelect (perTicker maxItems : Nat) (news : List NewsItem) :
    ∀ counts total, total < maxItems →
      (compactLoop perTicker maxItems news counts total).1
        = (specSelect perTicker maxItems news counts total).map mkCompact := by
  induction news with
  | nil => intro counts total _; rfl
  | cons item rest ih =>
    intro counts total htot
    by_cases hc : counts (normTicker item) ≥ perTicker
    · rw [compactLoop_cons_skip _ _ _ _ _ _ hc,
        specSelect_cons_skip _ _ _ _ _ _ (Or.inr hc)]
      exact ih counts total htot
    · have hns : ¬ (total ≥ maxItems ∨ counts (normTicker item) ≥ perTicker) := by
        push_neg
        exact ⟨htot, Nat.lt_of_not_le hc⟩
      rw [specSelect_cons_keep _ _ _ _ _ _ hns]
      by_cases hs : total + 1 ≥ maxItems
      · rw [compactLoop_cons_last _ _ _ _ _ _ hc hs,
          specSelect_of_full _ _ _ _ _ hs]
        rfl
      · rw [compactLoop_cons_keep _ _ _ _ _ _ hc hs]
        have htail := ih (fun x => if x = normTicker item
          then counts (normTicker item) + 1 else counts x) (total + 1)
          (Nat.lt_of_not_le hs)
        simp only [List.map_cons, htail]

/-- The spec selection never collects more than `maxItems - total` items. -/
theorem specSelect_length (perTicker maxItems : Nat) (news : List NewsItem) :
    ∀ counts total,
      (specSelect perTicker maxItems news counts total).length ≤ maxItems - total := by
  induction news with
  | nil => intro counts total; simp [specSelect_nil]
  | cons item rest ih =>
    intro counts total
    by_cases h : total ≥ maxItems ∨ counts (normTicker item) ≥ perTicker
    · rw [specSelect_cons_skip _ _ _ _ _ _ h]
      exact ih counts total
    · rw [specSelect_cons_keep _ _ _ _ _ _ h]
      push_neg at h
      have := ih (fun x => if x = normTicker item
        then counts (normTicker item) + 1 else counts x) (total + 1)
      simp only [List.length_cons]
      omega

/-- The spec selection never accepts more than `perTicker - counts t` items
whose normalized ticker is `t`. -/
theorem specSelect_countP (perTicker maxItems : Nat) (news : List NewsItem) :
    ∀ counts total (t : PyStr),
      (specSelect perTicker maxItems news counts total).countP
          (fun it => decide (normTicker it = t)) ≤ perTicker - counts t := by
  induction news with
  | nil => intro counts total t; simp [specSelect_nil]
  | cons item rest ih =>
    intro counts total t
    by_cases h : total ≥ maxItems ∨ counts (normTicker item) ≥ perTicker
    · rw [specSelect_cons_skip _ _ _ _ _ _ h]
      exact ih counts total t
    · rw [specSelect_cons_keep _ _ _ _ _ _ h, List.countP_cons]
      push_neg at h
      have hcap := h.2
      have hthis := ih (fun x => if x = normTicker item
        then counts (normTicker item) + 1 else counts x) (total + 1) t
      by_cases hts : normTicker item = t
      · subst hts
        simp at hthis ⊢
        omega
      · have hct : (if t = normTicker item
            then counts (normTicker item) + 1 else counts t) = counts t :=
          if_neg (fun hh => hts hh.symm)
        simp only [hct] at hthis
        simp only [decide_eq_true_eq, if_neg hts]
        omega

/-! ### Lemmas about the trimming loop and serialized sizes -/

theorem trimLoopAux_nil (fuel maxChars : Nat) : trimLoopAux fuel maxChars [] = [] := by
  cases fuel with
  | zero => rfl
  | succ fuel => simp [trimLoopAux]

theorem trimLoop_nil (maxChars : Nat) : trimLoop maxChars [] = [] :=
  trimLoopAux_nil 0 maxChars

theorem trimLoopAux_take (maxChars : Nat) :
    ∀ (fuel : Nat) (l : List CompactItem), ∃ n, trimLoopAux fuel maxChars l = l.take n := by
  intro fuel
  induction fuel with
  | zero => intro l; exact ⟨l.length, (List.take_length l).symm⟩
  | succ fuel ih =>
    intro l
    rw [trimLoopAux]
    split
    · obtain ⟨n, hn⟩ := ih l.dropLast
      refine ⟨min n (l.length - 1), ?_⟩
      rw [hn, List.dropLast_eq_take, List.take_take]
    · exact ⟨l.length, (List.take_length l).symm⟩

theorem trimLoop_take (maxChars : Nat) (l : List CompactItem) :
    ∃ n, trimLoop maxChars l = l.take n :=
  trimLoopAux_take maxChars l.length l

theorem trimLoopAux_budget (maxChars : Nat) :
    ∀ (fuel : Nat) (l : List CompactItem), l.length ≤ fuel →
      sizeOfCompact (trimLoopAux fuel maxChars l) ≤ maxChars
        ∨ trimLoopAux fuel maxChars l = [] := by
  intro fuel
  induction fuel with
  | zero =>
    intro l hl
    have hnil : l = [] := List.length_eq_zero.mp (Nat.le_zero.mp hl)
    subst hnil
    exact Or.inr (trimLoopAux_nil 0 maxChars)
  | succ fuel ih =>
    intro l hl
    rw [trimLoopAux]
    split
    · next hcond =>
      have hlen : l.dropLast.length ≤ fuel := by
        rw [List.length_dropLast]; omega
      exact ih l.dropLast hlen
    · next hcond =>
      rcases Classical.em (l = []) with hnil | hne
      · exact Or.inr hnil
      · left
        rcases not_and_or.mp hcond with h | h
        · exact absurd hne h
        · exact Nat.le_of_not_lt h

theorem trimLoop_budget (maxChars : Nat) (l : List CompactItem) :
    sizeOfCompact (trimLoop maxChars l) ≤ maxChars ∨ trimLoop maxChars l = [] :=
  trimLoopAux_budget maxChars l.length l (Nat.le_refl _)

/-- The serialized size of a singleton never exceeds that of a longer list
starting with the same item (`json.dumps` adds two characters per extra
separator plus the items themselves). -/
theorem sizeOfCompact_head_le (x : CompactItem) (xs : List CompactItem) :
    sizeOfCompact [x] ≤ sizeOfCompact (x :: xs) := by
  cases xs with
  | nil => exact Nat.le_refl _
  | cons y ys =>
    simp only [sizeOfCompact, serializeList, List.map_cons, joinCommaSpace,
      List.length_append, List.length_cons, List.length_nil]
    omega

theorem trimLoopAux_eq_nil_iff (maxChars : Nat) :
    ∀ (fuel : Nat) (x : CompactItem) (xs : List CompactItem), (x :: xs).length ≤ fuel →
      (trimLoopAux fuel maxChars (x :: xs) = [] ↔ sizeOfCompact [x] > maxChars) := by
  intro fuel
  induction fuel with
  | zero =>
    intro x xs hl
    simp at hl
  | succ fuel ih =>
    intro x xs hl
    rw [trimLoopAux]
    split
    · next hcond =>
      cases xs with
      | nil =>
        simp only [List.dropLast_single, trimLoopAux_nil]
        constructor
        · intro _
          exact hcond.2
        · intro _
          trivial
      | cons y ys =>
        have hdrop : (x :: y :: ys).dropLast = x :: (y :: ys).dropLast := rfl
        rw [hdrop]
        have hlen : (x :: (y :: ys).dropLast).length ≤ fuel := by
          simp only [List.length_cons, List.length_dropLast] at hl ⊢
          omega
        exact ih x (y :: ys).dropLast hlen
    · next hcond =>
      have hsz : sizeOfCompact (x :: xs) ≤ maxChars := by
        rcases not_and_or.mp hcond with h | h
        · exact absurd (List.cons_ne_nil x xs) h
        · exact Nat.le_of_not_lt h
      constructor
      · intro hfalse
        exact absurd hfalse (List.cons_ne_nil x xs)
      · intro hbig
        have := Nat.le_trans (sizeOfCompact_head_le x xs) hsz
        omega

theorem trimLoop_eq_nil_iff (maxChars : Nat) (x : CompactItem) (xs : List CompactItem) :
    trimLoop maxChars (x :: xs) = [] ↔ sizeOfCompact [x] > maxChars :=
  trimLoopAux_eq_nil_iff maxChars (x :: xs).length x xs (Nat.le_refl _)

/-- `_compact_news`'s first component is the trimmed collection-loop list
(also when the input is empty, since trimming the empty list is a no-op). -/
theorem compactNews_fst (news : List NewsItem) (maxItems perTicker maxChars : Nat) :
    (compactNews news maxItems perTicker maxChars).1
      = trimLoop maxChars (compactLoop perTicker maxItems news (fun _ => 0) 0).1 := by
  by_cases h : news.isEmpty
  · have hnil : news = [] := by
      cases news with
      | nil => rfl
      | cons a l => simp at h
    subst hnil
    simp [compactNews, compactLoop_nil, trimLoop_nil]
  · simp [compactNews, h]

/-- `_compact_news`'s second component is the deduplicated collection-loop
url list (also when the input is empty). -/
theorem compactNews_snd (news : List NewsItem) (maxItems perTicker maxChars : Nat) :
    (compactNews news maxItems perTicker maxChars).2
      = dedupUrls (compactLoop perTicker maxItems news (fun _ => 0) 0).2 [] := by
  by_cases h : news.isEmpty
  · have hnil : news = [] := by
      cases news with
      | nil => rfl
      | cons a l => simp at h
    subst hnil
    simp [compactNews, compactLoop_nil, dedupUrls]
  · simp [compactNews, h]

/-- C4: the compact list returned by `_compact_news` serializes to at most
`maxChars` characters or is empty; it is trimmed by repeatedly dropping
the last item (the result is a `take`-prefix of the collected candidate
list); and when any item was collected, the result is empty exactly when
even the single first collected item exceeds the budget. -/
theorem compactNews_budget_spec (news : List NewsItem) (maxItems perTicker maxChars : Nat) :
    (∃ n, (compactNews news maxItems perTicker maxChars).1
        = ((compactLoop perTicker maxItems news (fun _ => 0) 0).1).take n) ∧
    (sizeOfCompact (compactNews news maxItems perTicker maxChars).1 ≤ maxChars ∨
      (compactNews news maxItems perTicker maxChars).1 = []) ∧
    (∀ x xs, (compactLoop perTicker maxItems news (fun _ => 0) 0).1 = x :: xs →
      ((compactNews news maxItems perTicker maxChars).1 = [] ↔
        sizeOfCompact [x] > maxChars)) := by
  rw [compactNews_fst]
  refine ⟨trimLoop_take _ _, trimLoop_budget _ _, ?_⟩
  intro x xs hp
  rw [hp]
  exact trimLoop_eq_nil_iff maxChars x xs

/-- Witness for C4 at a concrete input: with a 10-character budget even a
single collected item is too large, so the whole compact list is trimmed
away although two candidates were collected. -/
theorem compactNews_budget_spec_witness :
    (compactLoop 4 20 [newsExA, newsExE] (fun _ => 0) 0).1
        = [mkCompact newsExA, mkCompact newsExE] ∧
    ((compactNews [newsExA, newsExE] 20 4 10).1 = [] ↔
      sizeOfCompact [mkCompact newsExA] > 10) ∧
    (compactNews [newsExA, newsExE] 20 4 10).1 = [] :=
  ⟨by decide, (compactNews_budget_spec [newsExA, newsExE] 20 4 10).2.2
      (mkCompact newsExA) [mkCompact newsExE] (by decide), by decide⟩

/-- C5: in the output of `_compact_news` no ticker contributes more than
`perTicker` entries, the total count never exceeds `maxItems` (which is
positive; the source's default is 20), and the candidates are exactly the
earliest eligible items in input order: the collection loop equals the
spec's greedy selection mapped through the per-item compaction. -/
theorem compactNews_caps_spec (news : List NewsItem) (maxItems perTicker maxChars : Nat)
    (hN : 0 < maxItems) :
    (∀ t : PyStr, ((compactNews news maxItems perTicker maxChars).1).countP
        (fun c => decide (c.ticker = t)) ≤ perTicker) ∧
    ((compactNews news maxItems perTicker maxChars).1).length ≤ maxItems ∧
    (compactLoop perTicker maxItems news (fun _ => 0) 0).1
      = (specSelect perTicker maxItems news (fun _ => 0) 0).map mkCompact := by
  have heq := compactLoop_eq_specSelect perTicker maxItems news (fun _ => 0) 0 hN
  refine ⟨?_, ?_, heq⟩
  · intro t
    obtain ⟨n, hn⟩ := trimLoop_take maxChars (compactLoop perTicker maxItems news (fun _ => 0) 0).1
    rw [compactNews_fst, hn]
    calc ((compactLoop perTicker maxItems news (fun _ => 0) 0).1.take n).countP
          (fun c => decide (c.ticker = t))
        ≤ ((compactLoop perTicker maxItems news (fun _ => 0) 0).1).countP
          (fun c => decide (c.ticker = t)) :=
          (List.take_sublist n _).countP_le _
      _ = ((specSelect perTicker maxItems news (fun _ => 0) 0).map mkCompact).countP
          (fun c => decide (c.ticker = t)) := by rw [heq]
      _ = (specSelect perTicker maxItems news (fun _ => 0) 0).countP
          (fun it => decide (normTicker it = t)) := by
            rw [List.countP_map]
            rfl
      _ ≤ perTicker - (fun _ => 0 : PyStr → Nat) t :=
          specSelect_countP perTicker maxItems news (fun _ => 0) 0 t
      _ ≤ perTicker := Nat.sub_le _ _
  · obtain ⟨n, hn⟩ := trimLoop_take maxChars (compactLoop perTicker maxItems news (fun _ => 0) 0).1
    rw [compactNews_fst, hn]
    calc ((compactLoop perTicker maxItems news (fun _ => 0) 0).1.take n).length
        ≤ ((compactLoop perTicker maxItems news (fun _ => 0) 0).1).length :=
          (List.take_sublist n _).length_le
      _ = ((specSelect perTicker maxItems news (fun _ => 0) 0).map mkCompact).length := by
          rw [heq]
      _ = (specSelect perTicker maxItems news (fun _ => 0) 0).length :=
          List.length_map _ _
      _ ≤ maxItems - 0 := specSelect_length perTicker maxItems news (fun _ => 0) 0
      _ ≤ maxItems := Nat.le_refl _

/-- Witness for C5 at a concrete input under the source's default caps. -/
theorem compactNews_caps_spec_witness :
    (0 : Nat) < 20 ∧
    ((compactNews [newsExA, newsExB, newsExC, newsExD, newsExE] 20 4 8000).1).countP
        (fun c => decide (c.ticker = ("AAPL".toList))) ≤ 4 ∧
    ((compactNews [newsExA, newsExB, newsExC, newsExD, newsExE] 20 4 8000).1).length ≤ 20 :=
  ⟨by decide,
   (compactNews_caps_spec [newsExA, newsExB, newsExC, newsExD, newsExE] 20 4 8000
      (by decide)).1 ("AAPL".toList),
   (compactNews_caps_spec [newsExA, newsExB, newsExC, newsExD, newsExE] 20 4 8000
      (by decide)).2.1⟩

/-! ### Lemmas about `dedupUrls` -/

theorem dedupUrls_nil (seen : List PyStr) : dedupUrls [] seen = [] := rfl

theorem dedupUrls_cons_keep (u : PyStr) (rest seen : List PyStr)
    (hc : u ≠ [] ∧ u ∉ seen) :
    dedupUrls (u :: rest) seen = u :: dedupUrls rest (u :: seen) := by
  simp only [dedupUrls, if_pos hc]

theorem dedupUrls_cons_skip (u : PyStr) (rest seen : List PyStr)
    (hc : ¬ (u ≠ [] ∧ u ∉ seen)) :
    dedupUrls (u :: rest) seen = dedupUrls rest seen := by
  simp only [dedupUrls, if_neg hc]

theorem dedupUrls_not_mem_seen (us : List PyStr) :
    ∀ seen u, u ∈ dedupUrls us seen → u ∉ seen := by
  induction us with
  | nil => intro seen u h; simp [dedupUrls_nil] at h
  | cons v rest ih =>
    intro seen u h
    by_cases hc : v ≠ [] ∧ v ∉ seen
    · rw [dedupUrls_cons_keep v rest seen hc] at h
      rcases List.mem_cons.mp h with h | h
      · subst h; exact hc.2
      · intro hseen
        exact ih (v :: seen) u h (List.mem_cons_of_mem v hseen)
    · rw [dedupUrls_cons_skip v rest seen hc] at h
      exact ih seen u h

theorem dedupUrls_nodup (us : List PyStr) : ∀ seen, (dedupUrls us seen).Nodup := by
  induction us with
  | nil => intro seen; simp [dedupUrls_nil]
  | cons v rest ih =>
    intro seen
    by_cases hc : v ≠ [] ∧ v ∉ seen
    · rw [dedupUrls_cons_keep v rest seen hc]
      refine List.nodup_cons.mpr ⟨?_, ih (v :: seen)⟩
      intro hmem
      exact dedupUrls_not_mem_seen rest (v :: seen) v hmem (List.mem_cons_self v seen)
    · rw [dedupUrls_cons_skip v rest seen hc]
      exact ih seen

theorem dedupUrls_sublist (us : List PyStr) :
    ∀ seen, List.Sublist (dedupUrls us seen) us := by
  induction us with
  | nil => intro seen; simp [dedupUrls_nil]
  | cons v rest ih =>
    intro seen
    by_cases hc : v ≠ [] ∧ v ∉ seen
    · rw [dedupUrls_cons_keep v rest seen hc]
      exact (ih (v :: seen)).cons₂ v
    · rw [dedupUrls_cons_skip v rest seen hc]
      exact (ih seen).cons v

theorem dedupUrls_mem (us : List PyStr) :
    ∀ seen u, u ∈ us → u ≠ [] → u ∉ seen → u ∈ dedupUrls us seen := by
  induction us with
  | nil => intro seen u h; simp at h
  | cons v rest ih =>
    intro seen u hmem hne hseen
    rcases List.mem_cons.mp hmem with heq | htail
    · subst heq
      rw [dedupUrls_cons_keep u rest seen ⟨hne, hseen⟩]
      exact List.mem_cons_self u _
    · by_cases hc : v ≠ [] ∧ v ∉ seen
      · rw [dedupUrls_cons_keep v rest seen hc]
        by_cases hvu : u = v
        · subst hvu; exact List.mem_cons_self u _
        · refine List.mem_cons_of_mem v (ih (v :: seen) u htail hne ?_)
          intro hin
          rcases List.mem_cons.mp hin with h | h
          · exact hvu h
          · exact hseen h
      · rw [dedupUrls_cons_skip v rest seen hc]
        exact ih seen u htail hne hseen

/-- Every url collected by the loop is non-empty (only non-empty stripped
urls are appended). -/
theorem compactLoop_urls_nonempty (perTicker maxItems : Nat) (news : List NewsItem) :
    ∀ counts size u, u ∈ (compactLoop perTicker maxItems news counts size).2 → u ≠ [] := by
  induction news with
  | nil => intro counts size u h; simp [compactLoop_nil] at h
  | cons item rest ih =>
    intro counts size u h
    by_cases hc : counts (normTicker item) ≥ perTicker
    · rw [compactLoop_cons_skip _ _ _ _ _ _ hc] at h
      exact ih counts size u h
    · by_cases hs : size + 1 ≥ maxItems
      · rw [compactLoop_cons_last _ _ _ _ _ _ hc hs] at h
        by_cases hu : (mkCompact item).url ≠ []
        · simp only [if_pos hu, List.mem_singleton] at h
          subst h; exact hu
        · simp only [if_neg hu] at h
          simp at h
      · rw [compactLoop_cons_keep _ _ _ _ _ _ hc hs] at h
        rcases List.mem_append.mp h with h | h
        · by_cases hu : (mkCompact item).url ≠ []
          · simp only [if_pos hu, List.mem_singleton] at h
            subst h; exact hu
          · simp only [if_neg hu] at h
            simp at h
        · exact ih _ (size + 1) u h

/-- Modelled from the spec (§4.3: "URLs are collected in the same traversal
order and deduplicated preserving first occurrence"): a left fold that
appends each non-empty url at its first traversal encounter — the canonical
first-seen-order deduplication, the refinement target C9 compares the
code's `dedupUrls` against. -/
def specCitationFold (us : List PyStr) : List PyStr :=
  us.foldl (fun acc u => if u ≠ [] ∧ u ∉ acc then acc ++ [u] else acc) []

/-- `dedupUrls` consults its `seen` argument only through membership. -/
theorem dedupUrls_seen_ext (us : List PyStr) :
    ∀ seen seen', (∀ x, x ∈ seen ↔ x ∈ seen') →
      dedupUrls us seen = dedupUrls us seen' := by
  induction us with
  | nil => intro _ _ _; rfl
  | cons u rest ih =>
    intro seen seen' h
    by_cases hc : u ≠ [] ∧ u ∉ seen
    · have hc' : u ≠ [] ∧ u ∉ seen' := ⟨hc.1, fun hm => hc.2 ((h u).mpr hm)⟩
      rw [dedupUrls_cons_keep u rest seen hc, dedupUrls_cons_keep u rest seen' hc']
      rw [ih (u :: seen) (u :: seen') (fun x => by simp [h x])]
    · have hc' : ¬ (u ≠ [] ∧ u ∉ seen') := by
        intro hcc
        exact hc ⟨hcc.1, fun hm => hcc.2 ((h u).mp hm)⟩
      rw [dedupUrls_cons_skip u rest seen hc, dedupUrls_cons_skip u rest seen' hc']
      exact ih seen seen' h

/-- The code's seen-set deduplication run after an already-collected prefix
`acc` equals the spec's append-at-first-encounter fold continued from that
prefix. -/
theorem dedupUrls_eq_fold (us : List PyStr) :
    ∀ acc : List PyStr,
      us.foldl (fun acc u => if u ≠ [] ∧ u ∉ acc then acc ++ [u] else acc) acc
        = acc ++ dedupUrls us acc := by
  induction us with
  | nil => intro acc; simp [dedupUrls_nil]
  | cons u rest ih =>
    intro acc
    rw [List.foldl_cons]
    by_cases hc : u ≠ [] ∧ u ∉ acc
    · rw [if_pos hc, ih (acc ++ [u]), dedupUrls_cons_keep u rest acc hc,
        dedupUrls_seen_ext rest (acc ++ [u]) (u :: acc) (fun x => by simp [or_comm])]
      simp
    · rw [if_neg hc, ih acc, dedupUrls_cons_skip u rest acc hc]

/-- C9: the url list returned by `_compact_news` has no duplicates,
preserves first-seen traversal order — it equals, exactly, the canonical
fold that appends each collected url at its first traversal encounter (and
is a sublist of the loop's traversal-order url collection containing every
collected url) — and is completely unaffected by the byte-budget parameter,
so the url of an item dropped by size-trimming may still appear in it. -/
theorem compactNews_citations_spec (news : List NewsItem)
    (maxItems perTicker maxChars maxChars' : Nat) :
    ((compactNews news maxItems perTicker maxChars).2).Nodup ∧
    List.Sublist (compactNews news maxItems perTicker maxChars).2
      (compactLoop perTicker maxItems news (fun _ => 0) 0).2 ∧
    (∀ u ∈ (compactLoop perTicker maxItems news (fun _ => 0) 0).2,
      u ∈ (compactNews news maxItems perTicker maxChars).2) ∧
    (compactNews news maxItems perTicker maxChars).2
      = specCitationFold (compactLoop perTicker maxItems news (fun _ => 0) 0).2 ∧
    (compactNews news maxItems perTicker maxChars).2
      = (compactNews news maxItems perTicker maxChars').2 := by
  rw [compactNews_snd news maxItems perTicker maxChars,
    compactNews_snd news maxItems perTicker maxChars']
  refine ⟨dedupUrls_nodup _ _, dedupUrls_sublist _ _, ?_, ?_, rfl⟩
  · intro u hu
    exact dedupUrls_mem _ _ u hu
      (compactLoop_urls_nonempty perTicker maxItems news (fun _ => 0) 0 u hu)
      (by simp)
  · rw [specCitationFold,
      dedupUrls_eq_fold (compactLoop perTicker maxItems news (fun _ => 0) 0).2 []]
    rfl

/-- Witness for C9 at concrete inputs.  First conjuncts: a duplicated url
later in the traversal ([u1, u2, u1] collected) is kept only at its first
position — the result is [u1, u2], the first-seen order, equal to the spec's
fold (a last-occurrence deduplication would give [u2, u1]).  Last conjuncts:
with a 10-character budget the whole compact list is trimmed away, yet the
citation list still contains both urls and equals the citation list computed
under the 8000-character budget. -/
theorem compactNews_citations_spec_witness :
    (compactLoop 4 20 [newsExA, newsExE, newsExB] (fun _ => 0) 0).2
        = [("https://x/a".toList), ("https://x/b".toList), ("https://x/a".toList)] ∧
    (compactNews [newsExA, newsExE, newsExB] 20 4 8000).2
        = [("https://x/a".toList), ("https://x/b".toList)] ∧
    (compactNews [newsExA, newsExE, newsExB] 20 4 8000).2
        = specCitationFold (compactLoop 4 20 [newsExA, newsExE, newsExB] (fun _ => 0) 0).2 ∧
    (compactNews [newsExA, newsExE] 20 4 10).2
        = (compactNews [newsExA, newsExE] 20 4 8000).2 ∧
    (compactNews [newsExA, newsExE] 20 4 10).1 = [] ∧
    ("https://x/a".toList) ∈ (compactNews [newsExA, newsExE] 20 4 10).2 :=
  ⟨by decide, by decide,
   (compactNews_citations_spec [newsExA, newsExE, newsExB] 20 4 8000 8000).2.2.2.1,
   (compactNews_citations_spec [newsExA, newsExE] 20 4 10 8000).2.2.2.2,
   by decide,
   (compactNews_citations_spec [newsExA, newsExE] 20 4 10 8000).2.2.1 _ (by decide)⟩

/-! ### Ticker case normalization (C10) -/

theorem char_toNat_ofNat_valid {m : Nat} (h : m < 55296) : (Char.ofNat m).toNat = m := by
  rw [Char.ofNat, dif_pos (Or.inl h)]
  rfl

theorem char_toUpper_idem (c : Char) : c.toUpper.toUpper = c.toUpper := by
  by_cases h : c.toNat ≥ 97 ∧ c.toNat ≤ 122
  · have h1 : c.toUpper = Char.ofNat (c.toNat - 32) := by
      simp only [Char.toUpper]
      rw [if_pos h]
    have hv : (Char.ofNat (c.toNat - 32)).toNat = c.toNat - 32 :=
      char_toNat_ofNat_valid (by omega)
    rw [h1]
    simp only [Char.toUpper, hv]
    rw [if_neg (by omega)]
  · have h1 : c.toUpper = c := by
      simp only [Char.toUpper]
      rw [if_neg h]
    rw [h1, h1]

theorem pyUpper_idem (s : PyStr) : pyUpper (pyUpper s) = pyUpper s := by
  induction s with
  | nil => rfl
  | cons c cs ih =>
    simp only [pyUpper, List.map_cons] at ih ⊢
    rw [char_toUpper_idem, ih]

/-- Two news items that agree on everything except possibly the letter case
of their ticker (or its absence versus emptiness): their normalized tickers
coincide. -/
def tickerCaseEquiv (a b : NewsItem) : Prop :=
  normTicker a = normTicker b ∧ a.title = b.title ∧ a.url = b.url ∧
  a.source = b.source ∧ a.published_at = b.published_at

theorem mkCompact_congr (a b : NewsItem) (h : tickerCaseEquiv a b) :
    mkCompact a = mkCompact b := by
  obtain ⟨h1, h2, h3, h4, h5⟩ := h
  simp only [mkCompact, h1, h2, h3, h4, h5]

theorem compactLoop_congr (perTicker maxItems : Nat)
    (news news' : List NewsItem) (h : List.Forall₂ tickerCaseEquiv news news') :
    ∀ counts size, compactLoop perTicker maxItems news counts size
      = compactLoop perTicker maxItems news' counts size := by
  induction h with
  | nil => intro counts size; rfl
  | @cons a b l1 l2 hab htail ih =>
    intro counts size
    have hticker : normTicker a = normTicker b := hab.1
    have hmk : mkCompact a = mkCompact b := mkCompact_congr a b hab
    by_cases hc : counts (normTicker a) ≥ perTicker
    · rw [compactLoop_cons_skip _ _ a l1 counts size hc,
        compactLoop_cons_skip _ _ b l2 counts size (by rw [← hticker]; exact hc)]
      exact ih counts size
    · by_cases hs : size + 1 ≥ maxItems
      · rw [compactLoop_cons_last _ _ a l1 counts size hc hs,
          compactLoop_cons_last _ _ b l2 counts size (by rw [← hticker]; exact hc) hs,
          hmk]
      · rw [compactLoop_cons_keep _ _ a l1 counts size hc hs,
          compactLoop_cons_keep _ _ b l2 counts size (by rw [← hticker]; exact hc) hs,
          hmk, ← hticker,
          ih (fun x => if x = normTicker a then counts (normTicker a) + 1 else counts x)
            (size + 1)]

theorem compactNews_congr (news news' : List NewsItem)
    (maxItems perTicker maxChars : Nat) (h : List.Forall₂ tickerCaseEquiv news news') :
    compactNews news maxItems perTicker maxChars
      = compactNews news' maxItems perTicker maxChars := by
  have hloop := compactLoop_congr perTicker maxItems news news' h (fun _ => 0) 0
  have h1 : (compactNews news maxItems perTicker maxChars).1
      = (compactNews news' maxItems perTicker maxChars).1 := by
    rw [compactNews_fst, compactNews_fst, hloop]
  have h2 : (compactNews news maxItems perTicker maxChars).2
      = (compactNews news' maxItems perTicker maxChars).2 := by
    rw [compactNews_snd, compactNews_snd, hloop]
  exact Prod.ext h1 h2

/-- Every entry of the collection loop's compact list is the compaction of
some news item. -/
theorem compactLoop_mem_mkCompact (perTicker maxItems : Nat) (news : List NewsItem) :
    ∀ counts size c, c ∈ (compactLoop perTicker maxItems news counts size).1 →
      ∃ item, c = mkCompact item := by
  induction news with
  | nil => intro counts size c hc; simp [compactLoop_nil] at hc
  | cons item rest ih =>
    intro counts size c hc
    by_cases hcnt : counts (normTicker item) ≥ perTicker
    · rw [compactLoop_cons_skip _ _ _ _ _ _ hcnt] at hc
      exact ih counts size c hc
    · by_cases hs : size + 1 ≥ maxItems
      · rw [compactLoop_cons_last _ _ _ _ _ _ hcnt hs] at hc
        rcases List.mem_singleton.mp hc with rfl
        exact ⟨item, rfl⟩
      · rw [compactLoop_cons_keep _ _ _ _ _ _ hcnt hs] at hc
        rcases List.mem_cons.mp hc with rfl | hc
        · exact ⟨item, rfl⟩
        · exact ih _ (size + 1) c hc

/-- C10: `_compact_news` upper-cases each item's ticker before counting
(a missing ticker counts as the empty string), so inputs whose tickers
differ only in letter case — or in absence versus emptiness — produce the
very same output and share one per-ticker cap bucket; and every compact
entry's ticker is uppercase (fixed by further upper-casing). -/
theorem compactNews_ticker_case_spec (news news' : List NewsItem)
    (maxItems perTicker maxChars : Nat) (h : List.Forall₂ tickerCaseEquiv news news') :
    compactNews news maxItems perTicker maxChars
        = compactNews news' maxItems perTicker maxChars ∧
    (∀ c ∈ (compactNews news maxItems perTicker maxChars).1,
      pyUpper c.ticker = c.ticker) := by
  refine ⟨compactNews_congr news news' maxItems perTicker maxChars h, ?_⟩
  intro c hc
  rw [compactNews_fst] at hc
  obtain ⟨n, hn⟩ := trimLoop_take maxChars (compactLoop perTicker maxItems news (fun _ => 0) 0).1
  rw [hn] at hc
  obtain ⟨item, rfl⟩ := compactLoop_mem_mkCompact perTicker maxItems news (fun _ => 0) 0 c
    (List.take_subset n _ hc)
  exact pyUpper_idem (pyOrEmpty item.ticker)

/-- Items used to witness the ticker-case theorem: a lower-case ticker and a
missing ticker on one side, the upper-case ticker and an empty-string ticker
on the other. -/
def newsLc1 : NewsItem := ⟨some ("aapl".toList), some ("t1".toList), some ("https://y/1".toList), none, none⟩

def newsLc2 : NewsItem := ⟨none, some ("t2".toList), some ("https://y/2".toList), none, none⟩

def newsUc1 : NewsItem := ⟨some ("AAPL".toList), some ("t1".toList), some ("https://y/1".toList), none, none⟩

def newsUc2 : NewsItem := ⟨some [], some ("t2".toList), some ("https://y/2".toList), none, none⟩

/-- Witness for C10 at a concrete input. -/
theorem compactNews_ticker_case_spec_witness :
    compactNews [newsLc1, newsLc2] 20 4 8000 = compactNews [newsUc1, newsUc2] 20 4 8000 ∧
    pyUpper (mkCompact newsLc1).ticker = (mkCompact newsLc1).ticker :=
  ⟨(compactNews_ticker_case_spec [newsLc1, newsLc2] [newsUc1, newsUc2] 20 4 8000
      (List.Forall₂.cons ⟨by decide, rfl, rfl, rfl, rfl⟩
        (List.Forall₂.cons ⟨by decide, rfl, rfl, rfl, rfl⟩ List.Forall₂.nil))).1,
   (compactNews_ticker_case_spec [newsLc1, newsLc2] [newsUc1, newsUc2] 20 4 8000
      (List.Forall₂.cons ⟨by decide, rfl, rfl, rfl, rfl⟩
        (List.Forall₂.cons ⟨by decide, rfl, rfl, rfl, rfl⟩ List.Forall₂.nil))).2
     (mkCompact newsLc1) (by decide)⟩

/-! ## `openai_summarizer._cut_balanced_json`

Source (openai_summarizer.py lines 232-261): a forward scan holding a
nesting depth, an in-string flag and an escape flag. `brStep` is the state
transition of one loop iteration (without the early return); `cutLoop` is
the loop itself, returning the accumulated slice at the brace that brings
the depth back to zero. -/
structure BrState where
  depth : Int
  inStr : Bool
  esc : Bool
  deriving DecidableEq, Repr

def brStep (st : BrState) (c : Char) : BrState :=
  if st.inStr then
    if st.esc then ⟨st.depth, st.inStr, false⟩
    else if c = '\\' then ⟨st.depth, st.inStr, true⟩
    else if c = '"' then ⟨st.depth, false, st.esc⟩
    else st
  else
    if c = '"' then ⟨st.depth, true, st.esc⟩
    else if c = '\x7b' then ⟨st.depth + 1, st.inStr, st.esc⟩
    else if c = '\x7d' then ⟨st.depth - 1, st.inStr, st.esc⟩
    else st

/-- The scan loop: processes one character per step (state change exactly
`brStep`); when the character is a closing brace outside a string and the
decremented depth is zero, it returns the slice scanned so far. -/
def cutLoop : List Char → BrState → List Char → Option (List Char)
  | [], _, _ => none
  | c :: rest, st, acc =>
    if st.inStr then cutLoop rest (brStep st c) (acc ++ [c])
    else if c = '"' then cutLoop rest (brStep st c) (acc ++ [c])
    else if c = '\x7d' ∧ st.depth - 1 = 0 then some (acc ++ [c])
    else cutLoop rest (brStep st c) (acc ++ [c])

/-- `_cut_balanced_json(text, start)`: empty unless `start` points at an
opening brace (a negative Python `start` also returns empty and is outside
this Nat model; every caller passes a regex match offset ≥ 0), otherwise
the scan of the suffix with all-zero initial state. -/
def cutBalancedJson (text : PyStr) (start : Nat) : PyStr :=
  if text[start]? = some '\x7b' then
    (cutLoop (text.drop start) ⟨0, false, false⟩ []).getD []
  else []

/-- Plain automaton run (no early return), for specifying the scan. -/
def brRun (st : BrState) (cs : List Char) : BrState := cs.foldl brStep st

/-- Position `n` closes the scan started in state `st`: the character there
is a closing brace, the automaton is not inside a string just before it,
and the depth right after it is zero. -/
def closesAt (st : BrState) (cs : List Char) (n : Nat) : Bool :=
  match cs[n]? with
  | some c =>
    decide (c = '\x7d') && !(brRun st (cs.take n)).inStr
      && decide ((brRun st (cs.take (n + 1))).depth = 0)
  | none => false

/-- Immediate-close test for a single step. -/
def closeNow (st : BrState) (c : Char) : Bool :=
  !st.inStr && decide (c = '\x7d') && decide (st.depth - 1 = 0)

theorem cutLoop_cons (c : Char) (rest : List Char) (st : BrState) (acc : List Char) :
    cutLoop (c :: rest) st acc
      = if closeNow st c then some (acc ++ [c])
        else cutLoop rest (brStep st c) (acc ++ [c]) := by
  by_cases hs : st.inStr
  · simp [cutLoop, closeNow, hs]
  · by_cases hq : c = '"'
    · have : ¬ closeNow st c = true := by simp [closeNow, hq]
      simp [cutLoop, hs, hq, closeNow]
    · by_cases hcl : c = '\x7d' ∧ st.depth - 1 = 0
      · simp [cutLoop, hs, hq, hcl, closeNow]
      · have hcn : closeNow st c = false := by
          simp only [closeNow, hs]
          rcases not_and_or.mp hcl with h | h <;> simp [h]
        simp [cutLoop, hs, hq, hcl, hcn]

theorem brRun_nil (st : BrState) : brRun st [] = st := rfl

theorem brRun_cons (st : BrState) (c : Char) (cs : List Char) :
    brRun st (c :: cs) = brRun (brStep st c) cs := rfl

theorem closesAt_succ (st : BrState) (c : Char) (rest : List Char) (n : Nat) :
    closesAt st (c :: rest) (n + 1) = closesAt (brStep st c) rest n := by
  simp only [closesAt, List.getElem?_cons_succ, List.take_succ_cons, brRun_cons]

theorem closesAt_zero (st : BrState) (c : Char) (rest : List Char) :
    closesAt st (c :: rest) 0 = closeNow st c := by
  simp only [closesAt, List.getElem?_cons_zero, List.take_zero, List.take_succ_cons,
    List.take_zero, brRun_nil, closeNow]
  by_cases hs : st.inStr
  · simp [hs]
  · by_cases hc : c = '\x7d'
    · subst hc
      have : brRun st ['\x7d'] = ⟨st.depth - 1, st.inStr, st.esc⟩ := by
        simp only [brRun, List.foldl_cons, List.foldl_nil, brStep, hs]
        simp [if_neg (by decide : ¬ ('\x7d' : Char) = '"'),
          if_neg (by decide : ¬ ('\x7d' : Char) = '\x7b')]
      simp only [this]
      simp [hs]
    · simp [hs, hc]

theorem cutLoop_none (cs : List Char) :
    ∀ st acc, (∀ n, closesAt st cs n = false) → cutLoop cs st acc = none := by
  induction cs with
  | nil => intro st acc _; rfl
  | cons c rest ih =>
    intro st acc h
    rw [cutLoop_cons]
    have h0 : closeNow st c = false := by rw [← closesAt_zero st c rest]; exact h 0
    rw [h0]
    simp only [Bool.false_eq_true, if_false]
    exact ih (brStep st c) (acc ++ [c]) (fun n => by
      rw [← closesAt_succ st c rest n]; exact h (n + 1))

theorem cutLoop_some (cs : List Char) :
    ∀ st acc n, closesAt st cs n = true →
      (∀ m, m < n → closesAt st cs m = false) →
      cutLoop cs st acc = some (acc ++ cs.take (n + 1)) := by
  induction cs with
  | nil =>
    intro st acc n h _
    simp [closesAt] at h
  | cons c rest ih =>
    intro st acc n h hmin
    rw [cutLoop_cons]
    cases n with
    | zero =>
      rw [closesAt_zero] at h
      rw [h]
      simp
    | succ n =>
      have h0 : closeNow st c = false := by
        rw [← closesAt_zero st c rest]
        exact hmin 0 (Nat.succ_pos n)
      rw [h0]
      simp only [Bool.false_eq_true, if_false]
      rw [closesAt_succ] at h
      have hmin' : ∀ m, m < n → closesAt (brStep st c) rest m = false := by
        intro m hm
        rw [← closesAt_succ st c rest m]
        exact hmin (m + 1) (Nat.succ_lt_succ hm)
      rw [ih (brStep st c) (acc ++ [c]) n h hmin']
      simp [List.take_succ_cons]

/-- C7: `_cut_balanced_json` returns the empty string unless `start` points
at an opening brace; when it does, it returns exactly the minimal prefix of
the suffix ending at the brace that first returns the nesting depth to zero
(with quoted content opaque and backslash escapes respected by the
automaton), and the empty string when the depth never returns to zero; and
while the automaton is inside a string no character changes the depth. -/
theorem cutBalancedJson_spec (text : PyStr) (start : Nat) :
    (text[start]? ≠ some '\x7b' → cutBalancedJson text start = []) ∧
    (text[start]? = some '\x7b' →
      (∀ n, closesAt ⟨0, false, false⟩ (text.drop start) n = true →
        (∀ m, m < n → closesAt ⟨0, false, false⟩ (text.drop start) m = false) →
        cutBalancedJson text start = (text.drop start).take (n + 1)) ∧
      ((∀ n, closesAt ⟨0, false, false⟩ (text.drop start) n = false) →
        cutBalancedJson text start = [])) ∧
    (∀ (st : BrState) (c : Char), st.inStr = true → (brStep st c).depth = st.depth) := by
  refine ⟨?_, ?_, ?_⟩
  · intro h
    simp [cutBalancedJson, h]
  · intro h
    constructor
    · intro n hn hmin
      rw [cutBalancedJson, if_pos h,
        cutLoop_some (text.drop start) ⟨0, false, false⟩ [] n hn hmin]
      simp
    · intro hall
      rw [cutBalancedJson, if_pos h, cutLoop_none (text.drop start) ⟨0, false, false⟩ [] hall]
      rfl
  · intro st c hs
    by_cases he : st.esc <;> by_cases hb : c = '\\' <;> by_cases hq : c = '"' <;>
      simp [brStep, hs, he, hb, hq]

/-- The spec's balanced-brace example (a closing brace inside a quoted
string). -/
def exampleBrace : PyStr :=
  "\x7b\"signals\": [\x7b\"a\": \"\x7d still inside string \x7d\"\x7d]\x7d".toList

/-- Witness for C7 at the spec's example: the scanner returns the full outer
object, unshortened by the brace inside the quoted string (the first closing
position is the final index 46). -/
theorem cutBalancedJson_spec_witness :
    closesAt ⟨0, false, false⟩ (exampleBrace.drop 0) 46 = true ∧
    cutBalancedJson exampleBrace 0 = (exampleBrace.drop 0).take 47 ∧
    (exampleBrace.drop 0).take 47 = exampleBrace :=
  ⟨by decide,
   ((cutBalancedJson_spec exampleBrace 0).2.1 (by decide)).1 46 (by decide) (by decide),
   by decide⟩

/-! ## A model of `json.loads`

`_extract_markdown_and_json` consults `json.loads` only for parse
success/failure and for the shape of the top-level value (mapping with a
`signals` key / bare sequence / other), so the numeric value of number
tokens is kept as its raw text.  The grammar and strictness follow CPython's
`json` module: JSON whitespace is ` \t\n\r`; strings reject unescaped
control characters and unknown escapes; `NaN`/`Infinity`/`-Infinity` are
accepted; trailing input after the top-level value is an error.  The fuel
starts at input length + 1 and every recursion level consumes at least one
character first, so fuel never runs out before the input does. -/
inductive JValue where
  | jnull : JValue
  | jbool : Bool → JValue
  | jnum : PyStr → JValue
  | jstr : PyStr → JValue
  | jarr : List JValue → JValue
  | jobj : List (PyStr × JValue) → JValue
  deriving Repr

instance : Inhabited JValue := ⟨JValue.jnull⟩

def jsonWsChar (c : Char) : Bool := c = ' ' || c = '\t' || c = '\n' || c = '\r'

def skipJsonWs (cs : PyStr) : PyStr := cs.dropWhile jsonWsChar

def hexVal (c : Char) : Option Nat :=
  if '0' ≤ c ∧ c ≤ '9' then some (c.toNat - 48)
  else if 'a' ≤ c ∧ c ≤ 'f' then some (c.toNat - 87)
  else if 'A' ≤ c ∧ c ≤ 'F' then some (c.toNat - 55)
  else none

def escChar (c : Char) : Option Char :=
  if c = '"' then some '"'
  else if c = '\\' then some '\\'
  else if c = '/' then some '/'
  else if c = 'b' then some '\x08'
  else if c = 'f' then some '\x0c'
  else if c = 'n' then some '\n'
  else if c = 'r' then some '\r'
  else if c = 't' then some '\t'
  else none

/-- String body scanner (after the opening quote).  `\uXXXX` escapes decode
to the code point, with CPython's surrogate-pair combination; a lone
surrogate (not a Unicode scalar) goes through `Char.ofNat`'s fallback — a
modelling margin for pathological input. -/
def parseJStr : Nat → PyStr → PyStr → Option (PyStr × PyStr)
  | 0, _, _ => none
  | fuel + 1, cs, acc =>
    match cs with
    | [] => none
    | '"' :: rest => some (acc.reverse, rest)
    | '\\' :: 'u' :: h1 :: h2 :: h3 :: h4 :: rest2 =>
      match hexVal h1, hexVal h2, hexVal h3, hexVal h4 with
      | some a, some b, some c, some d =>
        let code := ((a * 16 + b) * 16 + c) * 16 + d
        if 0xd800 ≤ code ∧ code ≤ 0xdbff then
          match rest2 with
          | '\\' :: 'u' :: g1 :: g2 :: g3 :: g4 :: rest3 =>
            match hexVal g1, hexVal g2, hexVal g3, hexVal g4 with
            | some a2, some b2, some c2, some d2 =>
              let low := ((a2 * 16 + b2) * 16 + c2) * 16 + d2
              if 0xdc00 ≤ low ∧ low ≤ 0xdfff then
                parseJStr fuel rest3
                  (Char.ofNat (0x10000 + (code - 0xd800) * 0x400 + (low - 0xdc00)) :: acc)
              else parseJStr fuel rest2 (Char.ofNat code :: acc)
            | _, _, _, _ => parseJStr fuel rest2 (Char.ofNat code :: acc)
          | _ => parseJStr fuel rest2 (Char.ofNat code :: acc)
        else parseJStr fuel rest2 (Char.ofNat code :: acc)
      | _, _, _, _ => none
    | '\\' :: e :: rest2 =>
      match escChar e with
      | some c => parseJStr fuel rest2 (c :: acc)
      | none => none
    | '\\' :: [] => none
    | c :: rest =>
      if c.toNat < 0x20 then none
      else parseJStr fuel rest (c :: acc)

def jsonDigit (c : Char) : Bool := decide ('0' ≤ c) && decide (c ≤ '9')

/-- The number token, per the json module's NUMBER_RE:
`-?(0|[1-9]\d*)(\.\d+)?([eE][-+]?\d+)?`; returns the raw token text. -/
def parseNumber (cs : PyStr) : Option (PyStr × PyStr) :=
  let (neg, cs1) : PyStr × PyStr :=
    match cs with
    | '-' :: r => (['-'], r)
    | _ => ([], cs)
  match cs1 with
  | c :: r =>
    if c = '0' then
      some (neg ++ [c], r)
    else if jsonDigit c then
      some (neg ++ (c :: r.takeWhile jsonDigit), r.dropWhile jsonDigit)
    else none
  | [] => none

def parseFrac (cs : PyStr) : PyStr × PyStr :=
  match cs with
  | '.' :: rest =>
    let ds := rest.takeWhile jsonDigit
    if ds = [] then ([], cs)
    else ('.' :: ds, rest.dropWhile jsonDigit)
  | _ => ([], cs)

def parseExp (cs : PyStr) : PyStr × PyStr :=
  match cs with
  | e :: rest =>
    if e = 'e' ∨ e = 'E' then
      let (sgn, rest1) : PyStr × PyStr :=
        match rest with
        | '+' :: r => (['+'], r)
        | '-' :: r => (['-'], r)
        | _ => ([], rest)
      let ds := rest1.takeWhile jsonDigit
      if ds = [] then ([], cs)
      else (e :: (sgn ++ ds), rest1.dropWhile jsonDigit)
    else ([], cs)
  | [] => ([], cs)

def parseNumToken (cs : PyStr) : Option (PyStr × PyStr) :=
  match parseNumber cs with
  | some (ip, rest) =>
    let (fp, rest1) := parseFrac rest
    let (ep, rest2) := parseExp rest1
    some (ip ++ fp ++ ep, rest2)
  | none => none

mutual

def parseValue : Nat → PyStr → Option (JValue × PyStr)
  | 0, _ => none
  | fuel + 1, cs =>
    match cs with
    | [] => none
    | '"' :: rest =>
      match parseJStr (fuel + 1) rest [] with
      | some (s, rest1) => some (.jstr s, rest1)
      | none => none
    | '\x7b' :: rest =>
      match skipJsonWs rest with
      | '\x7d' :: rest1 => some (.jobj [], rest1)
      | _ => parseObjBody fuel rest []
    | '[' :: rest =>
      match skipJsonWs rest with
      | ']' :: rest1 => some (.jarr [], rest1)
      | _ => parseArrBody fuel rest []
    | 't' :: rest =>
      if rest.take 3 = ("rue".toList) then some (.jbool true, rest.drop 3) else none
    | 'f' :: rest =>
      if rest.take 4 = ("alse".toList) then some (.jbool false, rest.drop 4) else none
    | 'n' :: rest =>
      if rest.take 3 = ("ull".toList) then some (.jnull, rest.drop 3) else none
    | 'N' :: rest =>
      if rest.take 2 = ("aN".toList) then some (.jnum ("NaN".toList), rest.drop 2) else none
    | 'I' :: rest =>
      if rest.take 7 = ("nfinity".toList) then
        some (.jnum ("Infinity".toList), rest.drop 7)
      else none
    | '-' :: 'I' :: rest =>
      if rest.take 7 = ("nfinity".toList) then
        some (.jnum ("-Infinity".toList), rest.drop 7)
      else none
    | other =>
      match parseNumToken other with
      | some (raw, rest) => some (.jnum raw, rest)
      | none => none

def parseObjBody : Nat → PyStr → List (PyStr × JValue) → Option (JValue × PyStr)
  | 0, _, _ => none
  | fuel + 1, cs, acc =>
    match skipJsonWs cs with
    | '"' :: rest =>
      match parseJStr (fuel + 1) rest [] with
      | some (key, rest1) =>
        match skipJsonWs rest1 with
        | ':' :: rest2 =>
          match parseValue fuel (skipJsonWs rest2) with
          | some (v, rest3) =>
            match skipJsonWs rest3 with
            | ',' :: rest4 => parseObjBody fuel rest4 ((key, v) :: acc)
            | '\x7d' :: rest4 => some (.jobj ((key, v) :: acc).reverse, rest4)
            | _ => none
          | none => none
        | _ => none
      | none => none
    | _ => none

def parseArrBody : Nat → PyStr → List JValue → Option (JValue × PyStr)
  | 0, _, _ => none
  | fuel + 1, cs, acc =>
    match parseValue fuel (skipJsonWs cs) with
    | some (v, rest) =>
      match skipJsonWs rest with
      | ',' :: rest1 => parseArrBody fuel rest1 (v :: acc)
      | ']' :: rest1 => some (.jarr (v :: acc).reverse, rest1)
      | _ => none
    | none => none

end

/-- `json.loads`: parse one value surrounded by optional whitespace; any
remaining input is an error. -/
def jsonLoads (s : PyStr) : Option JValue :=
  match parseValue (s.length + 1) (skipJsonWs s) with
  | some (v, rest) => if skipJsonWs rest = [] then some v else none
  | none => none

/-! ## `openai_summarizer._strip_code_fences` and the marker search -/

/-- Line-break characters recognized by Python's `str.splitlines`. -/
def isLineBreak (c : Char) : Bool :=
  c = '\n' || c = '\r' || c = '\x0b' || c = '\x0c' || c = '\x1c' || c = '\x1d' ||
  c = '\x1e' || c = '\x85' || c.toNat = 0x2028 || c.toNat = 0x2029

/-- `str.splitlines()`: split at line breaks (`\r\n` counts as one), no
trailing empty line for a terminal break. -/
def pySplitlines : PyStr → PyStr → List PyStr
  | [], acc => if acc = [] then [] else [acc.reverse]
  | '\r' :: '\n' :: rest, acc => acc.reverse :: pySplitlines rest []
  | c :: rest, acc =>
    if isLineBreak c then acc.reverse :: pySplitlines rest []
    else pySplitlines rest (c :: acc)

/-- `_strip_code_fences` (openai_summarizer.py lines 163-170). -/
def stripCodeFences (s : PyStr) : PyStr :=
  let s := pyStrip s
  if s.take 3 = ("```".toList) ∧ s.drop (s.length - 3) = ("```".toList) then
    let lines := pySplitlines s []
    if lines.length ≥ 2 then List.intercalate ('\n' :: []) ((lines.drop 1).dropLast)
    else s
  else s

/-- `text.find(pat)` (first occurrence index, `none` for Python's -1). -/
def findSub : PyStr → PyStr → Nat → Option Nat
  | [], _, _ => none
  | c :: rest, pat, i =>
    if pat.isPrefixOf (c :: rest) then some i else findSub rest pat (i + 1)

/-- `$` of a MULTILINE pattern holds at end of string or just before `\n`. -/
def dollarOk (text : PyStr) (p : Nat) : Bool :=
  decide (p = text.length) || decide (text[p]? = some '\n')

/-- Greedy trailing `\s*$`: the largest `k ≤ r` whitespace characters such
that `$` holds after them (backtracking tries the longest first). -/
def bestDollar (text : PyStr) (pos : Nat) : Nat → Option Nat
  | 0 => if dollarOk text pos then some pos else none
  | k + 1 =>
    if dollarOk text (pos + (k + 1)) then some (pos + (k + 1))
    else bestDollar text pos k

def wsRun (cs : PyStr) : Nat := (cs.takeWhile isPySpace).length

/-- Matcher for `^\s*(?:-->\s*)?json\s*:\s*$` (IGNORECASE | MULTILINE) at
one anchor position.  Each `\s*` before a non-whitespace literal is forced
to the maximal whitespace run (a shorter match leaves a whitespace character
where the literal is required), so the regex engine's backtracking is
deterministic except for the final `\s*$`, handled by `bestDollar`.
Returns the match end. -/
def matchMarkerAt (text : PyStr) (anchor : Nat) : Option Nat :=
  let s0 := text.drop anchor
  let p1 := anchor + wsRun s0
  let s1 := s0.dropWhile isPySpace
  let step2 : Nat × PyStr :=
    if s1.take 3 = ("-->".toList) then
      let s1' := s1.drop 3
      (p1 + 3 + wsRun s1', s1'.dropWhile isPySpace)
    else (p1, s1)
  let p2 := step2.1
  let s2 := step2.2
  if (s2.take 4).map Char.toLower = ("json".toList) then
    let s3 := s2.drop 4
    let r := wsRun s3
    match s3.dropWhile isPySpace with
    | ':' :: s5 => bestDollar text (p2 + 4 + r + 1) (wsRun s5)
    | _ => none
  else none

/-- The anchor positions of `^` under MULTILINE: position 0 and every
position just after a newline. -/
def anchorsList (text : PyStr) : List Nat :=
  0 :: ((List.range text.length).filter (fun i => text[i]? = some '\n')).map (fun i => i + 1)

/-- `re.search` of the marker pattern: the leftmost anchor with a match
(anchors are tried in ascending position order), with its match span. -/
def findMarker (text : PyStr) : Option (Nat × Nat) :=
  (anchorsList text).findSome? (fun a => (matchMarkerAt text a).map (fun e => (a, e)))

/-- Matcher for one position of `\{\s*"signals"\s*:\s*` (IGNORECASE): an
opening brace, maximal whitespace, the quoted key (letters
case-insensitive), maximal whitespace, a colon. -/
def sigMatchAt (text : PyStr) (p : Nat) : Bool :=
  match text[p]? with
  | some '\x7b' =>
    let s1 := (text.drop (p + 1)).dropWhile isPySpace
    if (s1.take 9).map Char.toLower = ("\"signals\"".toList) then
      match (s1.drop 9).dropWhile isPySpace with
      | ':' :: _ => true
      | _ => false
    else false
  | _ => false

/-- `matches[-1].start()` of `finditer`: the last matching position.  Two
matches of this pattern can never overlap (no opening brace occurs inside a
match span after its first character), so non-overlapping `finditer`
enumeration finds every matching position. -/
def lastSigMatch (text : PyStr) : Option Nat :=
  ((List.range text.length).filter (fun p => sigMatchAt text p)).getLast?

/-! ## `_extract_markdown_and_json` -/

/-- The dict literal `{'signals': []}`. -/
def emptySignals : JValue := .jobj [(("signals".toList), .jarr [])]

def hasSignalsKey : JValue → Bool
  | .jobj kvs => kvs.any (fun kv => decide (kv.1 = ("signals".toList)))
  | _ => false

/-- The shared validation of a parsed candidate (lines 121-124, 137-140,
153-157): a mapping containing `signals` is returned as is, a bare list is
wrapped as `{'signals': parsed}`, anything else falls through. -/
def validateParsed : JValue → Option JValue
  | .jobj kvs =>
    if kvs.any (fun kv => decide (kv.1 = ("signals".toList))) then some (.jobj kvs)
    else none
  | .jarr xs => some (.jobj [(("signals".toList), .jarr xs)])
  | _ => none

/-- Fallback A (lines 112-126): a literal `\nJSON:` substring; markdown is
the text up to and including the newline (stripped), the JSON candidate is
the text after the 5-character marker. -/
def tryFallbackA (text : PyStr) : Option (PyStr × JValue) :=
  match findSub text ("\nJSON:".toList) 0 with
  | none => none
  | some idx =>
    match jsonLoads (pyStrip (stripCodeFences (pyStrip (text.drop (idx + 1 + 5))))) with
    | some v => (validateParsed v).map (fun sv => (pyStrip (text.take (idx + 1)), sv))
    | none => none

/-- Fallback B (lines 127-142): last inline `{"signals":` occurrence,
balanced-brace cut, parse; markdown is the text before the object. -/
def tryFallbackB (text : PyStr) : Option (PyStr × JValue) :=
  match lastSigMatch text with
  | none => none
  | some p =>
    if cutBalancedJson text p = [] then none
    else
      match jsonLoads (cutBalancedJson text p) with
      | some v => (validateParsed v).map (fun sv => (pyStrip (text.take p), sv))
      | none => none

/-- `_extract_markdown_and_json(content)` (lines 98-160).  `content or ''`
coerces a missing content to the empty string.  With a marker match the
fallbacks are not consulted: a parse failure there returns the pre-marker
markdown with empty signals.  Without a marker, fallback A, then fallback B,
then the give-up result (whole text stripped, empty signals). -/
def extractMarkdownAndJson (content : Option PyStr) : PyStr × JValue :=
  match findMarker (content.getD []) with
  | some se =>
    match jsonLoads (pyStrip (stripCodeFences (pyStrip ((content.getD []).drop se.2)))) with
    | some v =>
      match validateParsed v with
      | some sv => (pyStrip ((content.getD []).take se.1), sv)
      | none => (pyStrip ((content.getD []).take se.1), emptySignals)
    | none => (pyStrip ((content.getD []).take se.1), emptySignals)
  | none =>
    match tryFallbackA (content.getD []) with
    | some r => r
    | none =>
      match tryFallbackB (content.getD []) with
      | some r => r
      | none => (pyStrip (content.getD []), emptySignals)

/-! ### C1 and C3: parser totality and degradation -/

theorem validateParsed_hasSignals (v sv : JValue) (h : validateParsed v = some sv) :
    hasSignalsKey sv = true := by
  cases v with
  | jobj kvs =>
    by_cases hk : kvs.any (fun kv => decide (kv.1 = ("signals".toList))) = true
    · simp only [validateParsed, if_pos hk, Option.some.injEq] at h
      subst h
      simpa [hasSignalsKey] using hk
    · simp only [validateParsed, if_neg hk] at h
      exact Option.noConfusion h
  | jarr xs =>
    simp only [validateParsed, Option.some.injEq] at h
    subst h
    simp [hasSignalsKey]
  | jnull => simp [validateParsed] at h
  | jbool b => simp [validateParsed] at h
  | jnum r => simp [validateParsed] at h
  | jstr s => simp [validateParsed] at h

theorem tryFallbackA_hasSignals (text : PyStr) (r : PyStr × JValue)
    (h : tryFallbackA text = some r) : hasSignalsKey r.2 = true := by
  unfold tryFallbackA at h
  split at h
  · exact absurd h (by simp)
  · split at h
    · next v hv =>
      rcases Option.map_eq_some'.mp h with ⟨sv, hsv, heq⟩
      rw [← heq]
      exact validateParsed_hasSignals v sv hsv
    · exact absurd h (by simp)

theorem tryFallbackB_hasSignals (text : PyStr) (r : PyStr × JValue)
    (h : tryFallbackB text = some r) : hasSignalsKey r.2 = true := by
  unfold tryFallbackB at h
  split at h
  · exact absurd h (by simp)
  · split at h
    · exact absurd h (by simp)
    · split at h
      · next v hv =>
        rcases Option.map_eq_some'.mp h with ⟨sv, hsv, heq⟩
        rw [← heq]
        exact validateParsed_hasSignals v sv hsv
      · exact absurd h (by simp)

/-- C3: for every input (a missing content is coerced to the empty string),
`_extract_markdown_and_json` returns a pair whose mapping component always
contains the `signals` key — it never escapes with an exception, being a
total function of the text — and when no strategy succeeds (no marker line,
fallback A fails, fallback B fails) the result is exactly the whole input
trimmed with `{'signals': []}`. -/
theorem extract_total_spec (content : Option PyStr) :
    hasSignalsKey (extractMarkdownAndJson content).2 = true ∧
    (findMarker (content.getD []) = none → tryFallbackA (content.getD []) = none →
      tryFallbackB (content.getD []) = none →
      extractMarkdownAndJson content = (pyStrip (content.getD []), emptySignals)) := by
  constructor
  · unfold extractMarkdownAndJson
    split
    · split
      · split
        · next sv hsv => exact validateParsed_hasSignals _ sv hsv
        · rfl
      · rfl
    · split
      · next r hr => exact tryFallbackA_hasSignals _ r hr
      · split
        · next r hr => exact tryFallbackB_hasSignals _ r hr
        · rfl
  · intro h1 h2 h3
    unfold extractMarkdownAndJson
    rw [h1, h2, h3]

/-- Witness for C3 at a concrete input with no marker and no fallback. -/
theorem extract_total_spec_witness :
    hasSignalsKey (extractMarkdownAndJson (some ("hello".toList))).2 = true ∧
    extractMarkdownAndJson (some ("hello".toList))
      = (pyStrip ("hello".toList), emptySignals) :=
  ⟨(extract_total_spec (some ("hello".toList))).1,
   (extract_total_spec (some ("hello".toList))).2 rfl rfl rfl⟩

/-- C1 counterexample: on `"hello\nJson:\nnot json"` the marker line matches
(span 6..11) and the JSON after it is invalid, yet the returned markdown is
`"hello"` — the text before the marker — and not the entire original text
(trimmed or not), contradicting the claim's "markdown equal to the entire
original text". -/
theorem extract_marker_invalid_counterexample :
    findMarker ("hello\nJson:\nnot json".toList) = some (6, 11) ∧
    jsonLoads (pyStrip (stripCodeFences (pyStrip
      (("hello\nJson:\nnot json".toList).drop 11)))) = none ∧
    extractMarkdownAndJson (some ("hello\nJson:\nnot json".toList))
      = (("hello".toList), emptySignals) ∧
    ("hello".toList) ≠ ("hello\nJson:\nnot json".toList) ∧
    ("hello".toList) ≠ pyStrip ("hello\nJson:\nnot json".toList) :=
  ⟨rfl, rfl, rfl, by decide, by decide⟩

/-- C1 (amended): when a json marker line matches and the text after it is
syntactically invalid JSON, the parser returns the text BEFORE the marker
(stripped) as markdown — not the entire original text — together with the
empty SignalSet, and no exception escapes (the function is total). -/
theorem extract_marker_invalid_amended (content : Option PyStr) (s e : Nat)
    (hm : findMarker (content.getD []) = some (s, e))
    (hl : jsonLoads (pyStrip (stripCodeFences (pyStrip ((content.getD []).drop e)))) = none) :
    extractMarkdownAndJson content = (pyStrip ((content.getD []).take s), emptySignals) := by
  unfold extractMarkdownAndJson
  rw [hm]
  simp only [hl]

/-- Witness for the amended C1 at a concrete input. -/
theorem extract_marker_invalid_amended_witness :
    extractMarkdownAndJson (some ("md text\nJSON:\noops".toList))
      = (pyStrip (("md text\nJSON:\noops".toList).take 8), emptySignals) :=
  extract_marker_invalid_amended (some ("md text\nJSON:\noops".toList)) 8 13 rfl rfl

/-! ## `generate_daily_summary_en` error handling and `routes.run_now`
persistence (C8)

The whole try-block of `generate_daily_summary_en` — the POST, the
`raise_for_status`, the JSON decode, the `choices[0].message.content`
navigation — is summarized by one `Except` value: `.ok content` when the
call succeeded and yielded the response text, `.error e` (the `str` of the
exception) for a timeout, a non-2xx status or a transport error.  The
except-branch of the source sets the degraded pair.  `_extract_markdown_and_json`
is total, so nothing later in the try-block can raise either. -/
def generate_daily_summary_en (callResult : Except PyStr PyStr) : PyStr × JValue :=
  match callResult with
  | .ok content => extractMarkdownAndJson (some content)
  | .error e => (("Error calling OpenAI: ".toList) ++ e, emptySignals)

/-- The payload persisted by `routes.run_now` (lines 82-91) to
`data/last_run.json`; writing the file is an external effect, the persisted
content is this value. -/
structure RunReport where
  timestamp : PyStr
  news : List NewsItem
  indicators : List (PyStr × JValue)
  markdown : PyStr
  signals : JValue

def run_now_payload (ts : PyStr) (news : List NewsItem)
    (indicators : List (PyStr × JValue)) (callResult : Except PyStr PyStr) : RunReport :=
  ⟨ts, news, indicators, (generate_daily_summary_en callResult).1,
   (generate_daily_summary_en callResult).2⟩

/-- C8: on any model-call failure `generate_daily_summary_en` does not
raise: it returns a markdown string stating the error and the empty
SignalSet, and the run's persisted RunReport contains exactly that degraded
markdown and signal set (the run completes through the persistence step). -/
theorem generate_error_spec (e ts : PyStr) (news : List NewsItem)
    (indicators : List (PyStr × JValue)) :
    generate_daily_summary_en (Except.error e)
        = (("Error calling OpenAI: ".toList) ++ e, emptySignals) ∧
    (run_now_payload ts news indicators (Except.error e)).markdown
        = ("Error calling OpenAI: ".toList) ++ e ∧
    (run_now_payload ts news indicators (Except.error e)).signals = emptySignals :=
  ⟨rfl, rfl, rfl⟩
